import Mathlib

/-!
Verification of the starpets-tracker hunt pipeline (src/scraper.py).

The Python source is shallowly embedded: each helper of scraper.py is
translated into an executable Lean definition over `String`/`List`/`ℚ`
(Python `float` values that arise here are decimal literals and results of
decimal parsing; they are modelled as exact rationals).  Python string
primitives used by the source (`str.strip`, `str.split`, `str.lower`,
`str.join`, the `in` operator) are modelled by the `py*`/`strIn` functions
below, operating on the character data of a `String`.
-/

/-- Model of Python's `in` operator on lists: `n` occurs as a contiguous
sublist of the second argument. -/
def isInfixList (n : List Char) : List Char → Bool
  | [] => n.isPrefixOf []
  | c :: t => n.isPrefixOf (c :: t) || isInfixList n t

/-- Model of Python's `sub in s` substring test. -/
def strIn (sub s : String) : Bool := isInfixList sub.data s.data

/-- ASCII lowercasing of one character (model of what `str.lower` does on
the ASCII names appearing here). -/
def lowerChar (c : Char) : Char :=
  if 65 ≤ c.toNat && c.toNat ≤ 90 then Char.ofNat (c.toNat + 32) else c

/-- Model of Python's `str.lower`. -/
def pyLower (s : String) : String := ⟨s.data.map lowerChar⟩

/-- Model of Python's `str.strip` (no argument): drop whitespace from both
ends. -/
def pyStrip (s : String) : String :=
  ⟨(((s.data.dropWhile Char.isWhitespace).reverse).dropWhile Char.isWhitespace).reverse⟩

/-- Split a character list at every occurrence of `sep` (Python
`str.split(sep)` semantics: empty pieces are kept). -/
def splitOnChar (sep : Char) : List Char → List (List Char)
  | [] => [[]]
  | c :: cs =>
    match splitOnChar sep cs with
    | [] => [[]]
    | g :: gs => if c = sep then [] :: g :: gs else (c :: g) :: gs

/-- Model of Python's `raw.split("\n")`. -/
def pySplitNL (s : String) : List String := (splitOnChar '\n' s.data).map String.mk

/-- Model of Python's `sep.join(parts)`. -/
def pyJoin (sep : String) : List String → String
  | [] => ""
  | [x] => x
  | x :: y :: xs => x ++ sep ++ pyJoin sep (y :: xs)

/-- Numeric value of a list of decimal digit characters. -/
def digitsToNat (ds : List Char) : ℕ := ds.foldl (fun n c => 10 * n + (c.toNat - 48)) 0

/-- Model of `re.sub` effect of `raw.replace(",", ".")` on one character
(scraper.py line 55). -/
def normChar (c : Char) : Char := if c = ',' then '.' else c

/-- Model of `re.search(r"(\d+(?:\.\d+)?)", normalized)` followed by
`float(match.group(1))` (scraper.py lines 56-58): find the leftmost digit,
take the maximal digit run, then optionally a `.` followed by a nonempty
maximal digit run, and return the denoted decimal value. -/
def scanNum : List Char → Option ℚ
  | [] => none
  | c :: cs =>
    if c.isDigit then
      let ds := (c :: cs).takeWhile Char.isDigit
      some (match (c :: cs).dropWhile Char.isDigit with
        | '.' :: r =>
          let fs := r.takeWhile Char.isDigit
          if fs.isEmpty then (digitsToNat ds : ℚ)
          else (digitsToNat ds : ℚ) + (digitsToNat fs : ℚ) / (10 : ℚ) ^ fs.length
        | _ => (digitsToNat ds : ℚ))
    else scanNum cs

/-- Embedding of `parse_price` (scraper.py lines 53-59): normalize `,` to
`.`, then extract the first numeric token, or `none` if there is none. -/
def parse_price (raw : String) : Option ℚ := scanNum (raw.data.map normChar)

/-- `currency_symbols` of scraper.py line 191. -/
def currency_symbols : List String := ["$", "€", "EUR", "USD"]

/-- `any(sym in line for sym in currency_symbols)` (scraper.py line 194). -/
def has_currency (line : String) : Bool := currency_symbols.any (fun sym => strIn sym line)

/-- `re.search(r"\d", line)` viewed as a Boolean (scraper.py line 195). -/
def hasDigit (line : String) : Bool := line.data.any Char.isDigit

/-- The price-line test applied to each line (scraper.py line 195):
currency marker present, or a digit present and the line equal (by value)
to the card's last line. -/
def qline (lines : List String) (l : String) : Bool :=
  has_currency l || (hasDigit l && l == lines.getLast?.getD "")

/-- The classification loop of scraper.py lines 189-198: each qualifying
line overwrites `price_line`; every other line is appended to
`name_parts`. -/
def classifyLines (lines : List String) : Option String × List String :=
  lines.foldl
    (fun st l => if qline lines l then (some l, st.2) else (st.1, st.2 ++ [l]))
    (none, [])

/-- `[l.strip() for l in raw.split("\n") if l.strip()]` (scraper.py
line 186). -/
def cardLines (raw : String) : List String :=
  ((pySplitNL raw).map pyStrip).filter (fun l => !(l == ""))

/-- Classification of one RawCard (scraper.py lines 185-210): `none` when
the card is rejected, otherwise the observed name (space-join of the name
parts) and the parsed price. -/
def processCard (raw : String) : Option (String × ℚ) :=
  let lines := cardLines raw
  if lines.length < 2 then none
  else
    match (classifyLines lines).1 with
    | none => none
    | some price_line =>
      (parse_price price_line).map
        (fun price => (pyJoin " " (classifyLines lines).2, price))

/-- The classifier as the amended C3 describes it: the price line is the
last line satisfying the price-line test, and the observed name joins
exactly the lines that never qualified, in original order. -/
def processCard_spec (raw : String) : Option (String × ℚ) :=
  let lines := cardLines raw
  if lines.length < 2 then none
  else
    match (lines.filter (qline lines)).getLast? with
    | none => none
    | some price_line =>
      (parse_price price_line).map
        (fun price => (pyJoin " " (lines.filter (fun l => !(qline lines l))), price))

/-- One entry of the `alerts` list of config.json: `pet_name` is `none`
when the key is missing from the entry. -/
structure Entry where
  pet_name : Option String
  target_price : ℚ
deriving DecidableEq

/-- One scraped listing (`found_item` of scraper.py lines 207-211). -/
structure Item where
  timestamp : String
  pet_name : String
  price_eur : ℚ
deriving DecidableEq

/-- One insertion into a Python dict modelled as an association list in
insertion order: an existing key keeps its position and gets the new
value, a new key is appended. -/
def dictInsert (d : List (String × ℚ)) (k : String) (v : ℚ) : List (String × ℚ) :=
  if d.any (fun p => p.1 == k) then d.map (fun p => if p.1 == k then (k, v) else p)
  else d ++ [(k, v)]

/-- `target_pets = {a['pet_name'].strip(): a['target_price'] for a in
alerts if 'pet_name' in a}` (scraper.py line 241). -/
def buildTargetPets (alerts : List Entry) : List (String × ℚ) :=
  alerts.foldl (fun d a =>
    match a.pet_name with
    | some n => dictInsert d (pyStrip n) a.target_price
    | none => d) []

/-- Dict lookup `target_pets.get(k)` / `target_pets[k]`. -/
def dictGet (d : List (String × ℚ)) (k : String) : Option ℚ :=
  (d.find? (fun p => p.1 == k)).map (fun p => p.2)

/-- The match selection of scraper.py lines 251-259: exact key membership
(`if name in target_pets`) first, else the first key in dict order whose
lowercased form is a substring of the lowercased listing name. -/
def matching_target (target_pets : List (String × ℚ)) (name : String) : Option String :=
  if target_pets.any (fun p => p.1 == name) then some name
  else (target_pets.find? (fun p => strIn (pyLower p.1) (pyLower name))).map (fun p => p.1)

/-- The full guard under which scraper.py lines 261-266 store an item: a
truthy (non-`None`, nonempty) matched target whose max price is at least
the item's price. -/
def qualifies (tp : List (String × ℚ)) (it : Item) : Bool :=
  match matching_target tp it.pet_name with
  | none => false
  | some t =>
    !(t == "") && (match dictGet tp t with
      | none => false
      | some max_allowed => decide (it.price_eur ≤ max_allowed))

/-- The `filtered_results[name] = item` update of scraper.py lines 265-266
under its guard `name not in filtered_results or price <
filtered_results[name]['price_eur']` (Python dict update semantics: a new
key is appended, an existing key is replaced in place). -/
def frUpdate (fr : List (String × Item)) (it : Item) : List (String × Item) :=
  if fr.any (fun p => p.1 == it.pet_name) then
    fr.map (fun p =>
      if p.1 == it.pet_name && decide (it.price_eur < p.2.price_eur) then (p.1, it) else p)
  else fr ++ [(it.pet_name, it)]

/-- One iteration of the smart-filter loop (scraper.py lines 245-266).
`if matching_target:` is falsy both for `None` and for the empty string;
the inner `none` branch of the lookup is unreachable because a matched
name is always a dict key. -/
def filterStep (tp : List (String × ℚ)) (fr : List (String × Item)) (item : Item) :
    List (String × Item) :=
  match matching_target tp item.pet_name with
  | none => fr
  | some t =>
    if t == "" then fr
    else
      match dictGet tp t with
      | none => fr
      | some max_allowed =>
        if item.price_eur ≤ max_allowed then frUpdate fr item else fr

/-- The `filtered_results` dict after the loop of scraper.py lines
243-266, in insertion order. -/
def filtered_results (tp : List (String × ℚ)) (items : List Item) : List (String × Item) :=
  items.foldl (filterStep tp) []

/-- Trimmed names of the configured entries carrying a `pet_name` field,
in original configured order. -/
def tnames (alerts : List Entry) : List String :=
  (alerts.filterMap Entry.pet_name).map pyStrip

/-- The target price of the LAST configured entry whose trimmed name is
`k`. -/
def lastPrice (alerts : List Entry) (k : String) : Option ℚ :=
  (alerts.reverse.find? (fun a =>
    match a.pet_name with
    | some n => pyStrip n == k
    | none => false)).map Entry.target_price

/-- The C2 matching rule, spelled from the spec's words: exact equality of
the listing name with some configured trimmed target name; otherwise the
first target in original configured order whose trimmed name is a
case-insensitive substring of the listing name. -/
def specMatch (targetNames : List String) (name : String) : Option String :=
  if targetNames.any (fun t => t == name) then some name
  else targetNames.find? (fun t => strIn (pyLower t) (pyLower name))

/-- Embedding of the per-target loop of `hunt` (scraper.py lines
139-222).  Each configured entry is paired with the outcome of its
search/extract sequence: `none` when any exception was raised inside the
per-target `try` (caught by the `except` of line 221, which logs and
continues), `some raws` with the scraped RawCard texts otherwise.
Entries with a missing or empty trimmed name are skipped before the
`try`; classified listings are appended to the run's flat list, all
stamped with the single run timestamp. -/
def huntStep (ts : String) (acc : List Item) (tr : Entry × Option (List String)) :
    List Item :=
  match tr.1.pet_name with
  | none => acc
  | some n =>
    if pyStrip n == "" then acc
    else
      match tr.2 with
      | none => acc
      | some raws =>
        acc ++ raws.filterMap (fun raw =>
          (processCard raw).map (fun pr => ⟨ts, pr.1, pr.2⟩))

/-- The whole per-target loop of `hunt`: fold `huntStep` over the run's
entries, collecting the flat list of classified listings. -/
def hunt (ts : String) (run : List (Entry × Option (List String))) : List Item :=
  run.foldl (huntStep ts) []

/-- A raw config entry exactly as `json.load` delivers it: either key may
be missing.  `Entry` above is the well-formed view (both keys present
whenever `pet_name` is); `RawEntry` also represents an entry that has a
`pet_name` but no `target_price`. -/
structure RawEntry where
  pet_name : Option String
  target_price : Option ℚ
deriving DecidableEq

/-- The well-formed `Entry` view of a raw entry (a missing `target_price`
is mapped to an arbitrary value; only used under the well-formedness
hypothesis that rules that case out). -/
def entryOf (a : RawEntry) : Entry := ⟨a.pet_name, a.target_price.getD 0⟩

/-- One step of the dict comprehension of scraper.py line 241 over raw
entries: an entry without the `pet_name` key is filtered out by the
comprehension's `if 'pet_name' in a`; an entry with `pet_name` but no
`target_price` makes `a['target_price']` raise KeyError, modelled by the
absorbing `none` state (main aborts there — no mapping is produced). -/
def targetPetsStep (s : Option (List (String × ℚ))) (a : RawEntry) :
    Option (List (String × ℚ)) :=
  match s with
  | none => none
  | some d =>
    match a.pet_name with
    | none => some d
    | some n =>
      match a.target_price with
      | none => none
      | some v => some (dictInsert d (pyStrip n) v)

/-- The dict comprehension of scraper.py line 241 over raw entries:
`some` mapping when every retained entry has a `target_price`, `none`
(KeyError) otherwise. -/
def buildTargetPetsE (alerts : List RawEntry) : Option (List (String × ℚ)) :=
  alerts.foldl targetPetsStep (some [])

/-- `huntStep` over raw entries: the per-target loop of scraper.py lines
139-222 reads only `pet_name` to decide whether to search
(`alert.get("pet_name", "").strip()`); `target_price` is only printed,
so a missing `target_price` does not prevent the search. -/
def huntStepE (ts : String) (acc : List Item) (tr : RawEntry × Option (List String)) :
    List Item :=
  match tr.1.pet_name with
  | none => acc
  | some n =>
    if pyStrip n == "" then acc
    else
      match tr.2 with
      | none => acc
      | some raws =>
        acc ++ raws.filterMap (fun raw =>
          (processCard raw).map (fun pr => ⟨ts, pr.1, pr.2⟩))

/-- The per-target loop over raw entries. -/
def huntE (ts : String) (run : List (RawEntry × Option (List String))) : List Item :=
  run.foldl (huntStepE ts) []

/-- One row of price_history.csv. -/
inductive Row where
  | header : Row
  | entry (it : Item) : Row
deriving DecidableEq

/-- Embedding of `append_to_csv` (scraper.py lines 76-86) as a transformer
of the store state: `none` models a nonexistent price_history.csv, `some
rows` its current content.  A run with no items writes nothing; the
header is written exactly when the file does not exist or is empty; the
items are appended in order. -/
def append_to_csv (items : List Item) (store : Option (List Row)) : Option (List Row) :=
  if items.isEmpty then store
  else
    match store with
    | none => some (Row.header :: items.map Row.entry)
    | some rs =>
      if rs.isEmpty then some (rs ++ Row.header :: items.map Row.entry)
      else some (rs ++ items.map Row.entry)

/-- The store after `k` successive runs, starting from no store. -/
def runsFold (runs : List (List Item)) : Option (List Row) :=
  runs.foldl (fun s r => append_to_csv r s) none

/-- `f"{price:.2f}"` on a nonnegative exact rational (cents-exact values
round exactly, as they do for Python's binary floats here). -/
def fmt2 (q : ℚ) : String :=
  let c : ℕ := (q.num.toNat * 200 + q.den) / (2 * q.den)
  toString (c / 100) ++ "." ++ (if c % 100 < 10 then "0" else "") ++ toString (c % 100)

/-- Python `str` of a configured target price as it appears inside the
f-string: integral values print without a decimal part. -/
def showQ (q : ℚ) : String := if q.den = 1 then toString q.num else fmt2 q

/-- The value the loop variable `matching_target` still holds at scraper.py
line 273: the match computed for the LAST item of the filtering loop
(`none` models Python `None`). -/
def lastMatch (tp : List (String × ℚ)) (items : List Item) : Option String :=
  match items.getLast? with
  | none => none
  | some it => matching_target tp it.pet_name

/-- `target_pets.get(pet_name, target_pets.get(matching_target, 'N/A'))`
as rendered inside the message f-string (scraper.py line 273). -/
def targetShown (tp : List (String × ℚ)) (mt : Option String) (pet_name : String) : String :=
  match dictGet tp pet_name with
  | some v => showQ v
  | none =>
    match mt with
    | none => "N/A"
    | some m =>
      match dictGet tp m with
      | none => "N/A"
      | some v => showQ v

/-- The messages dispatched by the alert loop of scraper.py lines 271-275,
in order; one `send_alert` call is made per entry of `filtered_results`. -/
def alert_messages (tp : List (String × ℚ)) (items : List Item) : List String :=
  (filtered_results tp items).foldl (fun msgs pr =>
    msgs ++ ["🎯 FOUND: " ++ pr.1 ++ " for " ++ fmt2 pr.2.price_eur
      ++ "€! (Target <= " ++ targetShown tp (lastMatch tp items) pr.1 ++ "€)"]) []

/-- The text of one Alert message as the amended C8 describes it. -/
def amended_message (tp : List (String × ℚ)) (mt : Option String) (pr : String × Item) :
    String :=
  "🎯 FOUND: " ++ pr.1 ++ " for " ++ fmt2 pr.2.price_eur
    ++ "€! (Target <= " ++ targetShown tp mt pr.1 ++ "€)"

/-- Invariant tying the partially built `target_pets` dict to the prefix
of config entries already folded in: key membership, scan order of the
keys, and last-value-wins lookups. -/
def DInv (pr : List Entry) (d : List (String × ℚ)) : Prop :=
  (∀ k, d.any (fun p => p.1 == k) = (tnames pr).any (fun t => t == k)) ∧
  (∀ q : String → Bool,
      (d.find? (fun p => q p.1)).map (fun p => p.1) = (tnames pr).find? q) ∧
  (∀ k, dictGet d k = lastPrice pr k)

/-- Invariant of the smart-filter loop over the processed prefix of the
run's items: distinct keys, each kept entry is a qualifying minimal item
of its name, and every qualifying processed item has its name present. -/
def FRInv (tp : List (String × ℚ)) (processed : List Item) (fr : List (String × Item)) :
    Prop :=
  ((fr.map Prod.fst).Nodup) ∧
  (∀ p ∈ fr, p.2.pet_name = p.1 ∧ p.2 ∈ processed ∧ qualifies tp p.2 = true ∧
    ∀ j ∈ processed, j.pet_name = p.1 → qualifies tp j = true →
      p.2.price_eur ≤ j.price_eur) ∧
  (∀ j ∈ processed, qualifies tp j = true → ∃ w, (j.pet_name, w) ∈ fr)

lemma normChar_of_isDigit {c : Char} (h : c.isDigit = true) : normChar c = c := by
  unfold normChar
  split
  · next heq => subst heq; exact absurd h (by decide)
  · rfl

lemma isDigit_normChar_false {c : Char} (h : c.isDigit = false) :
    (normChar c).isDigit = false := by
  unfold normChar
  split
  · decide
  · exact h

lemma map_normChar_of_digits {l : List Char} (h : ∀ c ∈ l, c.isDigit = true) :
    l.map normChar = l := by
  induction l with
  | nil => rfl
  | cons c t ih =>
    simp only [List.map_cons]
    rw [normChar_of_isDigit (h c (List.mem_cons_self c t)),
      ih (fun x hx => h x (List.mem_cons_of_mem _ hx))]

lemma scanNum_skip (p t : List Char) (hp : ∀ c ∈ p, c.isDigit = false) :
    scanNum (p ++ t) = scanNum t := by
  induction p with
  | nil => rfl
  | cons c p ih =>
    have hc : c.isDigit = false := hp c (List.mem_cons_self c p)
    simp only [List.cons_append, scanNum, hc, Bool.false_eq_true, if_false]
    exact ih (fun x hx => hp x (List.mem_cons_of_mem _ hx))

lemma takeWhile_append_of_all {α : Type} {p : α → Bool} (l1 l2 : List α)
    (h : ∀ c ∈ l1, p c = true) : (l1 ++ l2).takeWhile p = l1 ++ l2.takeWhile p := by
  induction l1 with
  | nil => rfl
  | cons c t ih =>
    simp [List.takeWhile_cons, h c (List.mem_cons_self c t),
      ih (fun x hx => h x (List.mem_cons_of_mem _ hx))]

lemma dropWhile_append_of_all {α : Type} {p : α → Bool} (l1 l2 : List α)
    (h : ∀ c ∈ l1, p c = true) : (l1 ++ l2).dropWhile p = l2.dropWhile p := by
  induction l1 with
  | nil => rfl
  | cons c t ih =>
    simp only [List.cons_append, List.dropWhile_cons, h c (List.mem_cons_self c t)]
    exact ih (fun x hx => h x (List.mem_cons_of_mem _ hx))

lemma takeWhile_eq_nil_of_all_false {α : Type} {p : α → Bool} {l : List α}
    (h : ∀ c ∈ l, p c = false) : l.takeWhile p = [] := by
  cases l with
  | nil => rfl
  | cons c t =>
    simp only [List.takeWhile_cons, h c (List.mem_cons_self c t), Bool.false_eq_true, if_false]

lemma scanNum_no_digit (l : List Char) (h : ∀ c ∈ l, c.isDigit = false) :
    scanNum l = none := by
  have := scanNum_skip l [] h
  simpa using this

/-- C5: on any string of the shape `<symbol?><digits><sep><digits><symbol?>`
(with `sep` either `,` or `.`, and the symbol parts free of digits),
`parse_price` returns exactly the decimal value denoted by the two digit
groups; and on any string containing no digit it returns `none`. -/
theorem parse_price_round_trip (p d1 d2 s : List Char) (sep : Char)
    (hp : ∀ c ∈ p, c.isDigit = false)
    (h1 : d1 ≠ []) (h1d : ∀ c ∈ d1, c.isDigit = true)
    (hsep : sep = ',' ∨ sep = '.')
    (h2 : d2 ≠ []) (h2d : ∀ c ∈ d2, c.isDigit = true)
    (hs : ∀ c ∈ s, c.isDigit = false) :
    parse_price ⟨p ++ d1 ++ sep :: (d2 ++ s)⟩
      = some ((digitsToNat d1 : ℚ) + (digitsToNat d2 : ℚ) / (10 : ℚ) ^ d2.length)
    ∧ ∀ r : String, (∀ c ∈ r.data, c.isDigit = false) → parse_price r = none := by
  constructor
  · unfold parse_price
    have hsep' : normChar sep = '.' := by
      rcases hsep with h | h <;> subst h <;> rfl
    simp only [List.map_append, List.map_cons, hsep']
    rw [map_normChar_of_digits h1d, map_normChar_of_digits h2d]
    rw [List.append_assoc]
    rw [scanNum_skip (p.map normChar) _
      (by intro c hc
          obtain ⟨c0, hc0, rfl⟩ := List.mem_map.mp hc
          exact isDigit_normChar_false (hp c0 hc0))]
    have hsmap : ∀ c ∈ s.map normChar, c.isDigit = false := by
      intro c hc
      obtain ⟨c0, hc0, rfl⟩ := List.mem_map.mp hc
      exact isDigit_normChar_false (hs c0 hc0)
    cases d1 with
    | nil => exact absurd rfl h1
    | cons c d1' =>
      have hc : c.isDigit = true := h1d c (List.mem_cons_self c d1')
      have htail : ∀ x ∈ d1', x.isDigit = true :=
        fun x hx => h1d x (List.mem_cons_of_mem _ hx)
      simp only [List.cons_append, scanNum, hc, if_true]
      have hTake :
          List.takeWhile Char.isDigit (c :: (d1' ++ '.' :: (d2 ++ s.map normChar)))
            = c :: d1' := by
        have : c :: (d1' ++ '.' :: (d2 ++ s.map normChar))
            = (c :: d1') ++ '.' :: (d2 ++ s.map normChar) := by simp
        rw [this, takeWhile_append_of_all _ _ h1d]
        simp [List.takeWhile_cons]
      have hDrop :
          List.dropWhile Char.isDigit (c :: (d1' ++ '.' :: (d2 ++ s.map normChar)))
            = '.' :: (d2 ++ s.map normChar) := by
        have : c :: (d1' ++ '.' :: (d2 ++ s.map normChar))
            = (c :: d1') ++ '.' :: (d2 ++ s.map normChar) := by simp
        rw [this, dropWhile_append_of_all _ _ h1d]
        simp [List.dropWhile_cons]
      simp only [List.append_eq]
      rw [hTake, hDrop]
      have hfs : List.takeWhile Char.isDigit (d2 ++ s.map normChar) = d2 := by
        rw [takeWhile_append_of_all _ _ h2d, takeWhile_eq_nil_of_all_false hsmap,
          List.append_nil]
      simp only [hfs]
      have hne : d2.isEmpty = false := by
        cases d2 with
        | nil => exact absurd rfl h2
        | cons _ _ => rfl
      simp [hne]
  · intro r hr
    unfold parse_price
    exact scanNum_no_digit _ (by
      intro c hc
      obtain ⟨c0, hc0, rfl⟩ := List.mem_map.mp hc
      exact isDigit_normChar_false (hr c0 hc0))

/-- Witness for C5 at the spec's own examples: `"0,29 €"` parses to the
decimal value `0 + 29/10^2 = 0.29`, and a digit-free string parses to
nothing. -/
theorem parse_price_round_trip_witness :
    parse_price "0,29 €"
      = some ((digitsToNat ['0'] : ℚ) + (digitsToNat ['2', '9'] : ℚ)
          / (10 : ℚ) ^ (['2', '9'] : List Char).length)
    ∧ parse_price "N/A" = none := by
  have h := parse_price_round_trip [] ['0'] ['2', '9'] [' ', '€'] ','
    (by decide) (by decide) (by decide) (Or.inl rfl) (by decide) (by decide) (by decide)
  exact ⟨h.1, h.2 "N/A" (by decide)⟩


lemma getLast?_cons_or {α : Type} (a : α) (l : List α) :
    (a :: l).getLast? = (l.getLast?).or (some a) := by
  induction l generalizing a with
  | nil => rfl
  | cons b t ih =>
    rw [List.getLast?_cons_cons, ih b]
    cases h : t.getLast? <;> rfl

lemma getLast?_eq_none_iff {α : Type} {l : List α} : l.getLast? = none ↔ l = [] := by
  cases l with
  | nil => simp
  | cons a t =>
    rw [getLast?_cons_or]
    cases h : t.getLast? <;> simp

lemma mem_of_getLast?_eq_some {α : Type} {l : List α} {x : α}
    (h : l.getLast? = some x) : x ∈ l := by
  induction l with
  | nil => simp at h
  | cons a t ih =>
    rw [getLast?_cons_or] at h
    cases h' : t.getLast? with
    | none =>
      rw [h'] at h
      have : a = x := by simpa using h
      subst this
      exact List.mem_cons_self a t
    | some y =>
      rw [h'] at h
      have : y = x := by simpa using h
      subst this
      exact List.mem_cons_of_mem _ (ih h')

lemma classify_foldl (q : String → Bool) (ls : List String) (pl : Option String)
    (nps : List String) :
    ls.foldl (fun st l => if q l then (some l, st.2) else (st.1, st.2 ++ [l])) (pl, nps)
      = (((ls.filter q).getLast?).or pl, nps ++ ls.filter (fun l => !(q l))) := by
  induction ls generalizing pl nps with
  | nil => simp
  | cons l ls ih =>
    by_cases hq : q l = true
    · simp only [List.foldl_cons, hq, if_true, List.filter_cons, Bool.not_true]
      rw [ih (some l) nps]
      simp only [hq, if_true, Bool.not_true, Bool.false_eq_true, if_false]
      rw [getLast?_cons_or]
      cases h : (ls.filter q).getLast? <;> rfl
    · have hq' : q l = false := by simpa using hq
      simp only [List.foldl_cons, hq', Bool.false_eq_true, if_false, List.filter_cons,
        Bool.not_false, if_true]
      rw [ih pl (nps ++ [l])]
      simp [hq', List.append_assoc]

lemma classifyLines_eq (lines : List String) :
    classifyLines lines
      = ((lines.filter (qline lines)).getLast?,
          lines.filter (fun l => !(qline lines l))) := by
  unfold classifyLines
  rw [classify_foldl]
  cases h : (lines.filter (qline lines)).getLast? <;> simp [h]

/-- C3 (amended): for every RawCard of at least two non-empty trimmed
lines, the Classifier selects as the price line the LAST line (in original
order) that contains a recognized currency marker or that contains a digit
and equals the last line of the card; the observed name is the
concatenation, joined by single spaces in original order, of exactly the
lines that never qualified as price lines.  (When several lines qualify,
the earlier qualifying lines are dropped entirely: they are neither the
price line nor part of the observed name.) -/
theorem listing_classifier_amended (raw : String) :
    processCard raw = processCard_spec raw := by
  simp only [processCard, processCard_spec, classifyLines_eq]

/-- Counterexample to C3 as stated: in the card `"1 $\nDragon\n2 $"` both
currency lines qualify, the later one (`"2 $"`) is selected, and the
observed name is `"Dragon"` — the earlier currency line `"1 $"` is not
part of the observed name, so the observed name is not the concatenation
of all non-price lines whichever qualifying line is taken as the price
line. -/
theorem classifier_last_wins_cex :
    processCard "1 $\nDragon\n2 $" = some ("Dragon", (2 : ℚ))
    ∧ ("Dragon" : String) ≠ "1 $ Dragon"
    ∧ ("Dragon" : String) ≠ "Dragon 2 $" :=
  ⟨by decide, by decide, by decide⟩

/-- C7 (amended): a RawCard is silently dropped (produces no Listing)
exactly when it has fewer than two non-empty trimmed lines, or no line
qualifies as a price line, or the selected price line fails to parse; a
blank or merged observed name is NOT a rejection reason.  A hunted
target's contribution to the run consists of exactly its classified
cards (dropped cards contribute nothing — no Listing, hence no history
row and no Alert — and are visible only through the count of classified
cards). -/
theorem classification_rejection_amended (raw : String) :
    (processCard raw = none
      ↔ ((cardLines raw).length < 2
          ∨ (∀ l ∈ cardLines raw, qline (cardLines raw) l = false)
          ∨ ∃ pl, (classifyLines (cardLines raw)).1 = some pl ∧ parse_price pl = none))
    ∧ ∀ (ts n : String) (tpv : ℚ) (cards : List String),
        hunt ts [(⟨some n, tpv⟩, some cards)]
          = if pyStrip n == "" then []
            else cards.filterMap (fun rw =>
              (processCard rw).map (fun pr => ⟨ts, pr.1, pr.2⟩)) := by
  constructor
  case right =>
    intro ts n tpv cards
    by_cases hn : (pyStrip n == "") = true <;> simp [hunt, huntStep, hn]
  case left =>
  simp only [processCard, classifyLines_eq]
  by_cases hlen : (cardLines raw).length < 2
  · simp [hlen]
  · simp only [hlen, if_false, false_or]
    cases hLast : ((cardLines raw).filter (qline (cardLines raw))).getLast? with
    | none =>
      have hfil : (cardLines raw).filter (qline (cardLines raw)) = [] :=
        getLast?_eq_none_iff.mp hLast
      have hall : ∀ l ∈ cardLines raw, qline (cardLines raw) l = false := by
        intro l hl
        cases hcase : qline (cardLines raw) l with
        | false => rfl
        | true =>
          have : l ∈ (cardLines raw).filter (qline (cardLines raw)) :=
            List.mem_filter.mpr ⟨hl, hcase⟩
          rw [hfil] at this
          exact absurd this (List.not_mem_nil l)
      simp only [hLast]
      exact iff_of_true trivial (Or.inl hall)
    | some pl =>
      have hmem : pl ∈ (cardLines raw).filter (qline (cardLines raw)) :=
        mem_of_getLast?_eq_some hLast
      have hq : qline (cardLines raw) pl = true := (List.mem_filter.mp hmem).2
      have hnot : ¬ (∀ l ∈ cardLines raw, qline (cardLines raw) l = false) := by
        intro hall
        have := hall pl (List.mem_filter.mp hmem).1
        rw [hq] at this
        exact Bool.noConfusion this
      cases hp : parse_price pl with
      | none => simp [hLast, hp, hnot]
      | some v => simp [hLast, hp, hnot]

/-- Counterexample to C7 as stated: the card `"$1\n$2"` classifies with a
blank observed name and is NOT dropped — it produces the Listing
`("", 2)`. -/
theorem blank_name_kept_cex : processCard "$1\n$2" = some ("", (2 : ℚ)) := by decide

lemma any_map_fst {β : Type} {g : String × β → String × β} (hg : ∀ p, (g p).1 = p.1)
    (d : List (String × β)) (q : String → Bool) :
    (d.map g).any (fun p => q p.1) = d.any (fun p => q p.1) := by
  induction d with
  | nil => rfl
  | cons p t ih => simp only [List.map_cons, List.any_cons, hg p, ih]

lemma find?_map_fst {β : Type} {g : String × β → String × β} (hg : ∀ p, (g p).1 = p.1)
    (d : List (String × β)) (q : String → Bool) :
    (d.map g).find? (fun p => q p.1) = (d.find? (fun p => q p.1)).map g := by
  induction d with
  | nil => rfl
  | cons p t ih =>
    by_cases hq : q p.1 = true
    · have e1 : List.find? (fun x : String × β => q x.1) (g p :: t.map g) = some (g p) :=
        List.find?_cons_of_pos _ (by show q (g p).1 = true; rw [hg p]; exact hq)
      have e2 : List.find? (fun x : String × β => q x.1) (p :: t) = some p :=
        List.find?_cons_of_pos _ hq
      rw [List.map_cons, e1, e2]
      rfl
    · have e1 : List.find? (fun x : String × β => q x.1) (g p :: t.map g)
          = List.find? (fun x : String × β => q x.1) (t.map g) :=
        List.find?_cons_of_neg _ (by show ¬ q (g p).1 = true; rw [hg p]; exact hq)
      have e2 : List.find? (fun x : String × β => q x.1) (p :: t)
          = List.find? (fun x : String × β => q x.1) t :=
        List.find?_cons_of_neg _ hq
      rw [List.map_cons, e1, e2]
      exact ih

lemma tnames_append (l1 l2 : List Entry) : tnames (l1 ++ l2) = tnames l1 ++ tnames l2 := by
  simp [tnames, List.filterMap_append]

lemma tnames_single_some {a : Entry} {n : String} (h : a.pet_name = some n) :
    tnames [a] = [pyStrip n] := by
  simp [tnames, List.filterMap, h]

lemma tnames_single_none {a : Entry} (h : a.pet_name = none) : tnames [a] = [] := by
  simp [tnames, List.filterMap, h]

lemma lastPrice_append_some (pr : List Entry) (a : Entry) (n : String)
    (h : a.pet_name = some n) (k : String) :
    lastPrice (pr ++ [a]) k
      = if pyStrip n == k then some a.target_price else lastPrice pr k := by
  unfold lastPrice
  rw [List.reverse_append]
  simp only [List.reverse_cons, List.reverse_nil, List.nil_append, List.singleton_append]
  by_cases hk : (pyStrip n == k) = true
  · rw [List.find?_cons_of_pos _ (by rw [h]; exact hk), if_pos hk]
    rfl
  · rw [List.find?_cons_of_neg _ (by rw [h]; exact hk), if_neg hk]

lemma lastPrice_append_none (pr : List Entry) (a : Entry) (k : String)
    (h : a.pet_name = none) : lastPrice (pr ++ [a]) k = lastPrice pr k := by
  unfold lastPrice
  rw [List.reverse_append]
  simp only [List.reverse_cons, List.reverse_nil, List.nil_append, List.singleton_append]
  rw [List.find?_cons_of_neg _ (by rw [h]; exact Bool.noConfusion)]

lemma dinv_nil : DInv [] [] := ⟨fun _ => rfl, fun _ => rfl, fun _ => rfl⟩

lemma bfalse {b : Bool} (h : ¬ b = true) : b = false := by
  cases b
  · rfl
  · exact absurd rfl h

lemma dinv_step_some (pr : List Entry) (d : List (String × ℚ)) (a : Entry) (n : String)
    (h : a.pet_name = some n) (hI : DInv pr d) :
    DInv (pr ++ [a]) (dictInsert d (pyStrip n) a.target_price) := by
  obtain ⟨h1, h2, h3⟩ := hI
  have htn : tnames (pr ++ [a]) = tnames pr ++ [pyStrip n] := by
    rw [tnames_append, tnames_single_some h]
  unfold dictInsert
  by_cases hpres : d.any (fun p => p.1 == pyStrip n) = true
  · rw [if_pos hpres]
    set g := fun p : String × ℚ =>
      if p.1 == pyStrip n then (pyStrip n, a.target_price) else p with hgdef
    have hg : ∀ p : String × ℚ, (g p).1 = p.1 := by
      intro p
      rw [hgdef]
      by_cases hp : (p.1 == pyStrip n) = true
      · simp only [hp, if_true]
        exact (eq_of_beq hp).symm
      · simp only [bfalse hp, Bool.false_eq_true, if_false]
    refine ⟨?_, ?_, ?_⟩
    · intro k
      rw [any_map_fst hg d (fun s => s == k), htn, List.any_append]
      simp only [List.any_cons, List.any_nil, Bool.or_false]
      by_cases hbk : (pyStrip n == k) = true
      · have hk : pyStrip n = k := eq_of_beq hbk
        subst hk
        simp [hpres]
      · rw [bfalse hbk, Bool.or_false]
        exact h1 k
    · intro q
      rw [find?_map_fst hg d q, htn, List.find?_append, ← h2 q]
      cases hf : d.find? (fun p => q p.1) with
      | none =>
        have hnone : ∀ x ∈ tnames pr, ¬ q x = true := by
          have := h2 q
          rw [hf] at this
          exact List.find?_eq_none.mp this.symm
        have hmemt : (tnames pr).any (fun t => t == pyStrip n) = true := by
          rw [← h1 (pyStrip n)]
          exact hpres
        obtain ⟨t0, ht0, hbt⟩ := List.any_eq_true.mp hmemt
        have hq0 : ¬ q (pyStrip n) = true := by
          rw [← eq_of_beq hbt]
          exact hnone t0 ht0
        rw [List.find?_cons_of_neg _ hq0]
        rfl
      | some p0 =>
        simp [hg p0]
    · intro k
      rw [lastPrice_append_some pr a n h k]
      unfold dictGet
      rw [find?_map_fst hg d (fun s => s == k)]
      by_cases hbk : (pyStrip n == k) = true
      · have hk : pyStrip n = k := eq_of_beq hbk
        subst hk
        have hsome : (d.find? (fun p => p.1 == pyStrip n)).isSome = true :=
          List.find?_isSome.mpr (List.any_eq_true.mp hpres)
        obtain ⟨p0, hp0⟩ := Option.isSome_iff_exists.mp hsome
        have hps : (p0.1 == pyStrip n) = true := by
          have := List.find?_some hp0
          simpa using this
        have hgp0 : g p0 = (pyStrip n, a.target_price) := by
          rw [hgdef]; simp [hps]
        simp [hp0, hgp0]
      · rw [if_neg hbk, ← h3 k]
        unfold dictGet
        cases hf : d.find? (fun p => p.1 == k) with
        | none => simp [hf]
        | some p1 =>
          have hp1 : (p1.1 == k) = true := by
            have := List.find?_some hf
            simpa using this
          have hneq : (p1.1 == pyStrip n) = false := by
            rw [eq_of_beq hp1]
            cases hkb : (k == pyStrip n)
            · rfl
            · exact absurd (beq_iff_eq.mpr (eq_of_beq hkb).symm) hbk
          have hgp1 : g p1 = p1 := by
            rw [hgdef]; simp [hneq]
          simp [hf, hgp1]
  · rw [if_neg hpres]
    have hpres' : d.any (fun p => p.1 == pyStrip n) = false := bfalse hpres
    refine ⟨?_, ?_, ?_⟩
    · intro k
      rw [List.any_append, htn, List.any_append, h1 k]
      rfl
    · intro q
      rw [List.find?_append, htn, List.find?_append, ← h2 q]
      cases hf : d.find? (fun p => q p.1) with
      | none =>
        simp only [Option.map_none', Option.none_or]
        by_cases hq0 : q (pyStrip n) = true
        · have e1 : List.find? (fun p : String × ℚ => q p.1)
              [(pyStrip n, a.target_price)] = some (pyStrip n, a.target_price) :=
            List.find?_cons_of_pos _ hq0
          have e2 : List.find? q [pyStrip n] = some (pyStrip n) :=
            List.find?_cons_of_pos _ hq0
          rw [e1, e2]
          rfl
        · have e1 : List.find? (fun p : String × ℚ => q p.1)
              [(pyStrip n, a.target_price)] = none :=
            List.find?_eq_none.mpr (by
              intro x hx
              have hxe : x = (pyStrip n, a.target_price) := List.mem_singleton.mp hx
              subst hxe
              exact hq0)
          have e2 : List.find? q [pyStrip n] = none :=
            List.find?_eq_none.mpr (by
              intro x hx
              have hxe : x = pyStrip n := List.mem_singleton.mp hx
              subst hxe
              exact hq0)
          rw [e1, e2]
          rfl
      | some p0 => rfl
    · intro k
      rw [lastPrice_append_some pr a n h k]
      unfold dictGet
      rw [List.find?_append]
      by_cases hbk : (pyStrip n == k) = true
      · have hk : pyStrip n = k := eq_of_beq hbk
        subst hk
        have hdn : d.find? (fun p => p.1 == pyStrip n) = none :=
          List.find?_eq_none.mpr (List.any_eq_false.mp hpres')
        rw [hdn, if_pos (by simp)]
        simp
      · rw [if_neg hbk, ← h3 k]
        unfold dictGet
        have hsing :
            ([(pyStrip n, a.target_price)].find? (fun p => p.1 == k)) = none :=
          List.find?_eq_none.mpr (by
            intro x hx
            have hxe : x = (pyStrip n, a.target_price) := List.mem_singleton.mp hx
            subst hxe
            exact hbk)
        cases hf : d.find? (fun p => p.1 == k) <;> simp [hsing]

lemma dinv_skip (pr : List Entry) (d : List (String × ℚ)) (a : Entry)
    (h : a.pet_name = none) (hI : DInv pr d) : DInv (pr ++ [a]) d := by
  obtain ⟨h1, h2, h3⟩ := hI
  have htn : tnames (pr ++ [a]) = tnames pr := by
    rw [tnames_append, tnames_single_none h, List.append_nil]
  refine ⟨?_, ?_, ?_⟩
  · intro k; rw [htn]; exact h1 k
  · intro q; rw [htn]; exact h2 q
  · intro k; rw [lastPrice_append_none pr a k h]; exact h3 k

lemma dinv_fold (alerts : List Entry) :
    ∀ (pr : List Entry) (d : List (String × ℚ)), DInv pr d →
      DInv (pr ++ alerts)
        (alerts.foldl (fun d a =>
          match a.pet_name with
          | some n => dictInsert d (pyStrip n) a.target_price
          | none => d) d) := by
  induction alerts with
  | nil =>
    intro pr d h
    simpa using h
  | cons a as ih =>
    intro pr d h
    have hstep : DInv (pr ++ [a])
        (match a.pet_name with
         | some n => dictInsert d (pyStrip n) a.target_price
         | none => d) := by
      cases hn : a.pet_name with
      | none => exact dinv_skip pr d a hn h
      | some n => exact dinv_step_some pr d a n hn h
    have := ih (pr ++ [a]) _ hstep
    rw [List.append_assoc, List.singleton_append] at this
    exact this

lemma build_dinv (alerts : List Entry) : DInv alerts (buildTargetPets alerts) := by
  have := dinv_fold alerts [] [] dinv_nil
  simpa [buildTargetPets] using this

lemma qualifies_destruct {tp : List (String × ℚ)} {it : Item}
    (h : qualifies tp it = true) :
    ∃ t v, matching_target tp it.pet_name = some t ∧ t ≠ ""
      ∧ dictGet tp t = some v ∧ it.price_eur ≤ v := by
  unfold qualifies at h
  cases hm : matching_target tp it.pet_name with
  | none =>
    rw [hm] at h
    simp at h
  | some t =>
    rw [hm] at h
    have h' : (!(t == "") && (match dictGet tp t with
        | none => false
        | some max_allowed => decide (it.price_eur ≤ max_allowed))) = true := h
    obtain ⟨hts, hrest⟩ := Bool.and_eq_true_iff.mp h'
    cases hd : dictGet tp t with
    | none =>
      rw [hd] at hrest
      exact absurd hrest (by simp)
    | some v =>
      rw [hd] at hrest
      exact ⟨t, v, rfl, fun he => by rw [he] at hts; simp at hts, hd,
        of_decide_eq_true hrest⟩

lemma filterStep_of_qualifies_false (tp : List (String × ℚ)) (fr : List (String × Item))
    (it : Item) (h : qualifies tp it = false) : filterStep tp fr it = fr := by
  unfold filterStep
  unfold qualifies at h
  cases hm : matching_target tp it.pet_name with
  | none => rfl
  | some t =>
    rw [hm] at h
    have h' : (!(t == "") && (match dictGet tp t with
        | none => false
        | some max_allowed => decide (it.price_eur ≤ max_allowed))) = false := h
    show (if t == "" then fr
      else match dictGet tp t with
        | none => fr
        | some max_allowed => if it.price_eur ≤ max_allowed then frUpdate fr it else fr)
      = fr
    by_cases ht : (t == "") = true
    · rw [if_pos ht]
    · rw [if_neg ht]
      cases hd : dictGet tp t with
      | none => rfl
      | some v =>
        rw [hd] at h'
        rw [bfalse ht] at h'
        simp only [Bool.not_false, Bool.true_and, decide_eq_false_iff_not] at h'
        show (if it.price_eur ≤ v then frUpdate fr it else fr) = fr
        rw [if_neg h']

lemma filterStep_of_qualifies_true (tp : List (String × ℚ)) (fr : List (String × Item))
    (it : Item) (h : qualifies tp it = true) : filterStep tp fr it = frUpdate fr it := by
  obtain ⟨t, v, hm, hts, hd, hle⟩ := qualifies_destruct h
  unfold filterStep
  rw [hm]
  show (if t == "" then fr
    else match dictGet tp t with
      | none => fr
      | some max_allowed => if it.price_eur ≤ max_allowed then frUpdate fr it else fr)
    = frUpdate fr it
  have ht' : ¬ (t == "") = true := fun htt => hts (eq_of_beq htt)
  rw [if_neg ht', hd]
  show (if it.price_eur ≤ v then frUpdate fr it else fr) = frUpdate fr it
  rw [if_pos hle]

lemma frinv_step (tp : List (String × ℚ)) (pr : List Item) (fr : List (String × Item))
    (it : Item) (h : FRInv tp pr fr) : FRInv tp (pr ++ [it]) (filterStep tp fr it) := by
  obtain ⟨hnd, hent, hcomp⟩ := h
  by_cases hq : qualifies tp it = true
  · rw [filterStep_of_qualifies_true tp fr it hq]
    unfold frUpdate
    by_cases hpres : fr.any (fun p => p.1 == it.pet_name) = true
    · rw [if_pos hpres]
      set g := fun p : String × Item =>
        if p.1 == it.pet_name && decide (it.price_eur < p.2.price_eur)
        then (p.1, it) else p with hgdef
      have hgfst : ∀ p, (g p).1 = p.1 := by
        intro p
        rw [hgdef]
        by_cases hc : (p.1 == it.pet_name && decide (it.price_eur < p.2.price_eur)) = true
        · simp only [hc, if_true]
        · simp only [bfalse hc, Bool.false_eq_true, if_false]
      refine ⟨?_, ?_, ?_⟩
      · have hmm : (fr.map g).map Prod.fst = fr.map Prod.fst := by
          rw [List.map_map]
          have : Prod.fst ∘ g = Prod.fst := funext hgfst
          rw [this]
        rw [hmm]
        exact hnd
      · intro p' hp'
        obtain ⟨p, hp, hpeq⟩ := List.mem_map.mp hp'
        by_cases hc : (p.1 == it.pet_name && decide (it.price_eur < p.2.price_eur)) = true
        · have hps : (p.1 == it.pet_name) = true := (Bool.and_eq_true_iff.mp hc).1
          have hlt : it.price_eur < p.2.price_eur :=
            of_decide_eq_true (Bool.and_eq_true_iff.mp hc).2
          have hp1 : p.1 = it.pet_name := eq_of_beq hps
          have hgp : g p = (p.1, it) := by rw [hgdef]; simp only [hc, if_true]
          rw [hgp] at hpeq
          subst hpeq
          obtain ⟨ha, hb, hcq, hd⟩ := hent p hp
          refine ⟨hp1.symm, List.mem_append_right _ (List.mem_singleton.mpr rfl), hq, ?_⟩
          intro j hj hname hqj
          rcases List.mem_append.mp hj with hj | hj
          · exact le_of_lt (lt_of_lt_of_le hlt (hd j hj hname hqj))
          · have hje : it = j := (List.mem_singleton.mp hj).symm
            subst hje
            exact le_refl _
        · have hgp : g p = p := by
            rw [hgdef]; simp only [bfalse hc, Bool.false_eq_true, if_false]
          rw [hgp] at hpeq
          subst hpeq
          obtain ⟨ha, hb, hcq, hd⟩ := hent p hp
          refine ⟨ha, List.mem_append_left _ hb, hcq, ?_⟩
          intro j hj hname hqj
          rcases List.mem_append.mp hj with hj | hj
          · exact hd j hj hname hqj
          · have hje : it = j := (List.mem_singleton.mp hj).symm
            subst hje
            have hps : (p.1 == it.pet_name) = true := beq_iff_eq.mpr hname.symm
            have hnlt : ¬ (it.price_eur < p.2.price_eur) := by
              intro hlt
              exact hc (by rw [hps, decide_eq_true hlt]; rfl)
            exact le_of_not_lt hnlt
      · intro j hj hqj
        rcases List.mem_append.mp hj with hj | hj
        · obtain ⟨w, hw⟩ := hcomp j hj hqj
          refine ⟨(g (j.pet_name, w)).2, ?_⟩
          have hfst : (j.pet_name, (g (j.pet_name, w)).2) = g (j.pet_name, w) := by
            have h1 : (g (j.pet_name, w)).1 = j.pet_name := hgfst (j.pet_name, w)
            calc (j.pet_name, (g (j.pet_name, w)).2)
                = ((g (j.pet_name, w)).1, (g (j.pet_name, w)).2) := by rw [h1]
              _ = g (j.pet_name, w) := rfl
          rw [hfst]
          exact List.mem_map_of_mem g hw
        · have hje : it = j := (List.mem_singleton.mp hj).symm
          subst hje
          obtain ⟨p, hp, hps⟩ := List.any_eq_true.mp hpres
          have hpe : p.1 = it.pet_name := eq_of_beq hps
          refine ⟨(g p).2, ?_⟩
          have hfst : (it.pet_name, (g p).2) = g p := by
            have h1 : (g p).1 = it.pet_name := by rw [hgfst p, hpe]
            calc (it.pet_name, (g p).2) = ((g p).1, (g p).2) := by rw [h1]
              _ = g p := rfl
          rw [hfst]
          exact List.mem_map_of_mem g hp
    · rw [if_neg hpres]
      have habs : ∀ p ∈ fr, (p.1 == it.pet_name) = false := by
        intro p hp
        by_cases hc : (p.1 == it.pet_name) = true
        · exact absurd (List.any_eq_true.mpr ⟨p, hp, hc⟩) hpres
        · exact bfalse hc
      refine ⟨?_, ?_, ?_⟩
      · rw [List.map_append, List.nodup_append]
        refine ⟨hnd, List.nodup_singleton _, ?_⟩
        intro x hx hx'
        obtain ⟨p, hp, hpx⟩ := List.mem_map.mp hx
        have hxe : x = it.pet_name := by simpa using hx'
        have := habs p hp
        rw [hpx, hxe] at this
        simp at this
      · intro p' hp'
        rcases List.mem_append.mp hp' with hp' | hp'
        · obtain ⟨ha, hb, hcq, hd⟩ := hent p' hp'
          refine ⟨ha, List.mem_append_left _ hb, hcq, ?_⟩
          intro j hj hname hqj
          rcases List.mem_append.mp hj with hj | hj
          · exact hd j hj hname hqj
          · have hje : it = j := (List.mem_singleton.mp hj).symm
            subst hje
            have hfalse : (p'.1 == it.pet_name) = false := habs p' hp'
            rw [show p'.1 = it.pet_name from hname.symm] at hfalse
            simp at hfalse
        · have hpe : p' = (it.pet_name, it) := List.mem_singleton.mp hp'
          subst hpe
          refine ⟨rfl, List.mem_append_right _ (List.mem_singleton.mpr rfl), hq, ?_⟩
          intro j hj hname hqj
          rcases List.mem_append.mp hj with hj | hj
          · obtain ⟨w, hw⟩ := hcomp j hj hqj
            rw [hname] at hw
            have := habs _ hw
            simp at this
          · have hje : it = j := (List.mem_singleton.mp hj).symm
            subst hje
            exact le_refl _
      · intro j hj hqj
        rcases List.mem_append.mp hj with hj | hj
        · obtain ⟨w, hw⟩ := hcomp j hj hqj
          exact ⟨w, List.mem_append_left _ hw⟩
        · have hje : it = j := (List.mem_singleton.mp hj).symm
          subst hje
          exact ⟨it, List.mem_append_right _ (List.mem_singleton.mpr rfl)⟩
  · have hq' : qualifies tp it = false := bfalse hq
    rw [filterStep_of_qualifies_false tp fr it hq']
    refine ⟨hnd, ?_, ?_⟩
    · intro p hp
      obtain ⟨ha, hb, hcq, hd⟩ := hent p hp
      refine ⟨ha, List.mem_append_left _ hb, hcq, ?_⟩
      intro j hj hname hqj
      rcases List.mem_append.mp hj with hj | hj
      · exact hd j hj hname hqj
      · have hje : it = j := (List.mem_singleton.mp hj).symm
        subst hje
        rw [hq'] at hqj
        exact absurd hqj (by simp)
    · intro j hj hqj
      rcases List.mem_append.mp hj with hj | hj
      · exact hcomp j hj hqj
      · have hje : it = j := (List.mem_singleton.mp hj).symm
        subst hje
        rw [hq'] at hqj
        exact absurd hqj (by simp)

lemma frinv_fold (tp : List (String × ℚ)) (items : List Item) :
    ∀ (pr : List Item) (fr : List (String × Item)), FRInv tp pr fr →
      FRInv tp (pr ++ items) (items.foldl (filterStep tp) fr) := by
  induction items with
  | nil =>
    intro pr fr h
    simpa using h
  | cons it its ih =>
    intro pr fr h
    have h1 := frinv_step tp pr fr it h
    have h2 := ih (pr ++ [it]) (filterStep tp fr it) h1
    rw [List.append_assoc, List.singleton_append] at h2
    exact h2

lemma filtered_results_inv (tp : List (String × ℚ)) (items : List Item) :
    FRInv tp items (filtered_results tp items) := by
  have h0 : FRInv tp [] [] := by
    refine ⟨List.nodup_nil, ?_, ?_⟩
    · intro p hp
      exact absurd hp (List.not_mem_nil p)
    · intro j hj
      exact absurd hj (List.not_mem_nil j)
  have := frinv_fold tp items [] [] h0
  simpa [filtered_results] using this

/-- C1: the Matcher emits at most one Alert per distinct observed listing
name (the keys of `filtered_results` are pairwise distinct), each kept
entry is a qualifying Listing of that observed name whose price is a
lower bound of all qualifying Listings sharing the name (hence equals
their minimum, the bound being attained), and every qualifying Listing's
name does receive an Alert. -/
theorem matcher_dedup_min (tp : List (String × ℚ)) (items : List Item) :
    ((filtered_results tp items).map Prod.fst).Nodup ∧
    (∀ p ∈ filtered_results tp items,
        p.2.pet_name = p.1 ∧ p.2 ∈ items ∧ qualifies tp p.2 = true ∧
        ∀ j ∈ items, j.pet_name = p.1 → qualifies tp j = true →
          p.2.price_eur ≤ j.price_eur) ∧
    (∀ j ∈ items, qualifies tp j = true →
        ∃ w, (j.pet_name, w) ∈ filtered_results tp items) :=
  filtered_results_inv tp items

/-- Witness for C1 at a concrete run: two qualifying Listings named
`"Dragon"` at prices 5 and 3; the dedup keeps the 3-priced one and its
price is a lower bound of the group. -/
theorem matcher_dedup_min_witness :
    (("Dragon", (⟨"t", "Dragon", 3⟩ : Item))
        ∈ filtered_results [("Dragon", (10 : ℚ))]
            [⟨"t", "Dragon", 5⟩, ⟨"t", "Dragon", 3⟩])
    ∧ (⟨"t", "Dragon", 3⟩ : Item).price_eur ≤ (⟨"t", "Dragon", 5⟩ : Item).price_eur := by
  refine ⟨by decide, ?_⟩
  have h := (matcher_dedup_min [("Dragon", (10 : ℚ))]
    [⟨"t", "Dragon", 5⟩, ⟨"t", "Dragon", 3⟩]).2.1
    ("Dragon", ⟨"t", "Dragon", 3⟩) (by decide)
  exact h.2.2.2 ⟨"t", "Dragon", 5⟩ (by decide) rfl (by decide)

/-- C2: under the spec's data-model invariant that configured names are
non-empty after trimming, the code's match selection agrees exactly with
the spec rule (exact equality with some configured trimmed target name,
else the first target in original configured order whose trimmed name is
a case-insensitive substring of the listing name, else no match), and
every stored Alert entry comes from a matched Listing whose price is at
most the matched target's max price. -/
theorem target_matching_rule (alerts : List Entry) (items : List Item)
    (hne : ∀ a ∈ alerts, a.pet_name.map pyStrip ≠ some "") :
    (∀ name, matching_target (buildTargetPets alerts) name
        = specMatch (tnames alerts) name)
    ∧ (∀ p ∈ filtered_results (buildTargetPets alerts) items,
        ∃ t v, matching_target (buildTargetPets alerts) p.2.pet_name = some t
          ∧ dictGet (buildTargetPets alerts) t = some v ∧ p.2.price_eur ≤ v) := by
  obtain ⟨h1, h2, h3⟩ := build_dinv alerts
  constructor
  · intro name
    unfold matching_target specMatch
    rw [h1 name]
    by_cases hmem : (tnames alerts).any (fun t => t == name) = true
    · rw [if_pos hmem, if_pos hmem]
    · rw [if_neg hmem, if_neg hmem]
      exact h2 (fun t => strIn (pyLower t) (pyLower name))
  · intro p hp
    have hq := ((filtered_results_inv (buildTargetPets alerts) items).2.1 p hp).2.2.1
    obtain ⟨t, v, hm, hts, hd, hle⟩ := qualifies_destruct hq
    exact ⟨t, v, hm, hd, hle⟩

/-- Witness for C2: with the single target `"Dragon"` (max 10), the
listing name `"Golden Dragon"` is matched by the substring fallback, and
the code's selection equals the spec rule's selection. -/
theorem target_matching_rule_witness :
    matching_target (buildTargetPets [⟨some "Dragon", 10⟩]) "Golden Dragon"
      = specMatch (tnames [⟨some "Dragon", 10⟩]) "Golden Dragon"
    ∧ specMatch (tnames [⟨some "Dragon", 10⟩]) "Golden Dragon" = some "Dragon" := by
  refine ⟨?_, by decide⟩
  exact (target_matching_rule [⟨some "Dragon", 10⟩] [] (by decide)).1 "Golden Dragon"

/-- C10: the name-to-max-price mapping built by the Matcher retains, for
every trimmed name, exactly the target price of the LAST configured entry
with that trimmed name; consequently every stored Alert's qualification
compares the listing price against that last-configured max price. -/
theorem duplicate_target_last_wins (alerts : List Entry) (items : List Item) :
    (∀ k, dictGet (buildTargetPets alerts) k = lastPrice alerts k)
    ∧ (∀ p ∈ filtered_results (buildTargetPets alerts) items,
        ∃ t v, matching_target (buildTargetPets alerts) p.2.pet_name = some t
          ∧ lastPrice alerts t = some v ∧ p.2.price_eur ≤ v) := by
  obtain ⟨h1, h2, h3⟩ := build_dinv alerts
  refine ⟨h3, ?_⟩
  intro p hp
  have hq := ((filtered_results_inv (buildTargetPets alerts) items).2.1 p hp).2.2.1
  obtain ⟨t, v, hm, hts, hd, hle⟩ := qualifies_destruct hq
  refine ⟨t, v, hm, ?_, hle⟩
  rw [← h3 t]
  exact hd

/-- Witness for C10: two entries share the trimmed name `"Dragon"` with
prices 5 then 10; the lookup and the qualification of a 7-priced listing
use the last price 10 (7 would not qualify against the earlier 5). -/
theorem duplicate_target_last_wins_witness :
    (("Dragon", (⟨"t", "Dragon", 7⟩ : Item))
        ∈ filtered_results (buildTargetPets [⟨some "Dragon", 5⟩, ⟨some "Dragon", 10⟩])
            [⟨"t", "Dragon", 7⟩])
    ∧ ∃ t v,
        matching_target (buildTargetPets [⟨some "Dragon", 5⟩, ⟨some "Dragon", 10⟩])
            (⟨"t", "Dragon", 7⟩ : Item).pet_name = some t
        ∧ lastPrice [⟨some "Dragon", 5⟩, ⟨some "Dragon", 10⟩] t = some v
        ∧ (⟨"t", "Dragon", 7⟩ : Item).price_eur ≤ v := by
  refine ⟨by decide, ?_⟩
  exact (duplicate_target_last_wins [⟨some "Dragon", 5⟩, ⟨some "Dragon", 10⟩]
    [⟨"t", "Dragon", 7⟩]).2 ("Dragon", ⟨"t", "Dragon", 7⟩) (by decide)

lemma isEmpty_eq_nil {α : Type} {l : List α} (h : l.isEmpty = true) : l = [] := by
  cases l with
  | nil => rfl
  | cons a t => exact Bool.noConfusion h

lemma huntStep_acc (ts : String) (acc : List Item) (tr : Entry × Option (List String)) :
    huntStep ts acc tr = acc ++ huntStep ts [] tr := by
  unfold huntStep
  cases hn : tr.1.pet_name with
  | none => simp
  | some n =>
    by_cases hs : (pyStrip n == "") = true <;> cases hr : tr.2 <;> simp [hs]

lemma hunt_foldl_acc (ts : String) (run : List (Entry × Option (List String))) :
    ∀ acc : List Item, run.foldl (huntStep ts) acc = acc ++ hunt ts run := by
  induction run with
  | nil =>
    intro acc
    simp [hunt]
  | cons tr rest ih =>
    intro acc
    have e1 : hunt ts (tr :: rest) = huntStep ts [] tr ++ hunt ts rest := by
      unfold hunt
      rw [List.foldl_cons, ih (huntStep ts [] tr)]
      rfl
    rw [List.foldl_cons, ih (huntStep ts acc tr), huntStep_acc ts acc tr, e1,
      List.append_assoc]

lemma hunt_append (ts : String) (l1 l2 : List (Entry × Option (List String))) :
    hunt ts (l1 ++ l2) = hunt ts l1 ++ hunt ts l2 := by
  unfold hunt
  rw [List.foldl_append, hunt_foldl_acc ts l2 (l1.foldl (huntStep ts) [])]
  rfl

lemma hunt_failed_single (ts : String) (a : Entry) : hunt ts [(a, none)] = [] := by
  cases hn : a.pet_name with
  | none => simp [hunt, huntStep, hn]
  | some n => by_cases hs : (pyStrip n == "") = true <;> simp [hunt, huntStep, hn, hs]

/-- C4: a failure inside one target's search/extract sequence is isolated:
with the failing oracle that target contributes zero Listings while the
preceding and subsequent targets produce exactly what they produce in a
run without that target's failure — the run never aborts and the
Listings of unaffected targets are unchanged (they are literally the same
prefix and suffix in both runs). -/
theorem per_target_failure_isolation (ts : String)
    (pre post : List (Entry × Option (List String))) (a : Entry) (cards : List String) :
    hunt ts (pre ++ (a, none) :: post) = hunt ts pre ++ hunt ts post
    ∧ hunt ts (pre ++ (a, some cards) :: post)
      = hunt ts pre ++ hunt ts [(a, some cards)] ++ hunt ts post := by
  constructor
  · rw [show pre ++ (a, none) :: post = pre ++ [(a, none)] ++ post from by simp,
      hunt_append, hunt_append, hunt_failed_single]
    simp
  · rw [show pre ++ (a, some cards) :: post = pre ++ [(a, some cards)] ++ post from by simp,
      hunt_append, hunt_append]

/-- Raw-entry and well-formed-entry hunting steps agree: the per-target
loop reads only `pet_name`. -/
lemma huntStepE_entry (ts : String) (acc : List Item)
    (tr : RawEntry × Option (List String)) :
    huntStepE ts acc tr = huntStep ts acc (entryOf tr.1, tr.2) := rfl

lemma huntE_eq_hunt (ts : String) (run : List (RawEntry × Option (List String))) :
    huntE ts run = hunt ts (run.map (fun tr => (entryOf tr.1, tr.2))) := by
  unfold huntE hunt
  suffices H : ∀ (run : List (RawEntry × Option (List String))) (acc : List Item),
      run.foldl (huntStepE ts) acc
        = (run.map (fun tr => (entryOf tr.1, tr.2))).foldl (huntStep ts) acc from
    H run []
  intro run
  induction run with
  | nil =>
    intro acc
    rfl
  | cons tr rest ih =>
    intro acc
    rw [List.foldl_cons, List.map_cons, List.foldl_cons, huntStepE_entry]
    exact ih _

lemma huntStepE_acc (ts : String) (acc : List Item)
    (tr : RawEntry × Option (List String)) :
    huntStepE ts acc tr = acc ++ huntStepE ts [] tr := by
  unfold huntStepE
  cases hn : tr.1.pet_name with
  | none => simp
  | some n =>
    by_cases hs : (pyStrip n == "") = true <;> cases hr : tr.2 <;> simp [hs]

lemma huntE_foldl_acc (ts : String) (run : List (RawEntry × Option (List String))) :
    ∀ acc : List Item, run.foldl (huntStepE ts) acc = acc ++ huntE ts run := by
  induction run with
  | nil =>
    intro acc
    simp [huntE]
  | cons tr rest ih =>
    intro acc
    have e1 : huntE ts (tr :: rest) = huntStepE ts [] tr ++ huntE ts rest := by
      unfold huntE
      rw [List.foldl_cons, ih (huntStepE ts [] tr)]
      rfl
    rw [List.foldl_cons, ih (huntStepE ts acc tr), huntStepE_acc ts acc tr, e1,
      List.append_assoc]

lemma huntE_append (ts : String) (l1 l2 : List (RawEntry × Option (List String))) :
    huntE ts (l1 ++ l2) = huntE ts l1 ++ huntE ts l2 := by
  unfold huntE
  rw [List.foldl_append, huntE_foldl_acc ts l2 (l1.foldl (huntStepE ts) [])]
  rfl

lemma foldl_targetPetsStep_none (l : List RawEntry) :
    l.foldl targetPetsStep none = none := by
  induction l with
  | nil => rfl
  | cons a t ih =>
    rw [List.foldl_cons]
    exact ih

lemma buildE_wf_aux (l : List RawEntry) :
    ∀ d : List (String × ℚ),
      (∀ a ∈ l, a.pet_name.isSome = true → a.target_price.isSome = true) →
      l.foldl targetPetsStep (some d)
        = some ((l.map entryOf).foldl (fun d a =>
            match a.pet_name with
            | some n => dictInsert d (pyStrip n) a.target_price
            | none => d) d) := by
  induction l with
  | nil =>
    intro d _
    rfl
  | cons a t ih =>
    intro d hall
    cases hn : a.pet_name with
    | none =>
      have e1 : targetPetsStep (some d) a = some d := by simp [targetPetsStep, hn]
      have e2 : (match (entryOf a).pet_name with
          | some n' => dictInsert d (pyStrip n') (entryOf a).target_price
          | none => d) = d := by simp [entryOf, hn]
      simp only [List.map_cons, List.foldl_cons, e1, e2]
      exact ih d (fun x hx => hall x (List.mem_cons_of_mem _ hx))
    | some n =>
      have hsome : a.target_price.isSome = true :=
        hall a (List.mem_cons_self a t) (by rw [hn]; rfl)
      obtain ⟨v, hv⟩ := Option.isSome_iff_exists.mp hsome
      have e1 : targetPetsStep (some d) a = some (dictInsert d (pyStrip n) v) := by
        simp [targetPetsStep, hn, hv]
      have e2 : (match (entryOf a).pet_name with
          | some n' => dictInsert d (pyStrip n') (entryOf a).target_price
          | none => d) = dictInsert d (pyStrip n) v := by
        simp [entryOf, hn, hv]
      simp only [List.map_cons, List.foldl_cons, e1, e2]
      exact ih _ (fun x hx => hall x (List.mem_cons_of_mem _ hx))

/-- On well-formed configs (every entry with a `pet_name` also has a
`target_price`) the raw comprehension succeeds and agrees with the
well-formed-entry mapping used by the Matcher theorems. -/
lemma buildTargetPetsE_wf (alerts : List RawEntry)
    (h : ∀ a ∈ alerts, a.pet_name.isSome = true → a.target_price.isSome = true) :
    buildTargetPetsE alerts = some (buildTargetPets (alerts.map entryOf)) :=
  buildE_wf_aux alerts [] h

/-- C9 (amended): an entry missing the `pet_name` key is skipped
silently — it triggers no search and is absent from the matcher's
mapping, so the Listings and Alerts of all other entries are identical
to a run without it; an entry whose name trims to the empty string also
triggers no search, and an empty matched name never itself yields an
Alert (every stored Alert has a nonempty matched target).  But the other
two cases inside C9's scope are NOT skipped: an empty-trimmed-name entry
is retained in the matcher's mapping, where its empty key captures the
substring fallback and can suppress later targets' Alerts (see the
counterexample), and an entry with a `pet_name` but a missing
`target_price` is still searched — the search depends only on
`pet_name` — and makes the matcher's dict comprehension raise KeyError
(the absorbing `none`), aborting the matching stage instead of skipping
the entry. -/
theorem skip_entries_amended (ts : String)
    (run1 run2 : List (RawEntry × Option (List String)))
    (e : RawEntry × Option (List String)) (items : List Item)
    (h : e.1.pet_name = none ∨ ∃ n, e.1.pet_name = some n ∧ pyStrip n = "") :
    huntE ts (run1 ++ e :: run2) = huntE ts (run1 ++ run2)
    ∧ (∀ l1 l2 : List RawEntry, e.1.pet_name = none →
        buildTargetPetsE (l1 ++ e.1 :: l2) = buildTargetPetsE (l1 ++ l2))
    ∧ (∀ tp : List (String × ℚ), ∀ p ∈ filtered_results tp items,
        ∃ t, matching_target tp p.2.pet_name = some t ∧ t ≠ "")
    ∧ (∀ (a : RawEntry) (n : String) (cards : List String), a.pet_name = some n →
        huntE ts [(a, some cards)]
          = if pyStrip n == "" then []
            else cards.filterMap (fun raw =>
              (processCard raw).map (fun pr => ⟨ts, pr.1, pr.2⟩)))
    ∧ (∀ (l1 l2 : List RawEntry) (a : RawEntry) (n : String),
        a.pet_name = some n → a.target_price = none →
        buildTargetPetsE (l1 ++ a :: l2) = none) := by
  refine ⟨?_, ?_, ?_, ?_, ?_⟩
  · have hsingle : huntE ts [e] = [] := by
      obtain ⟨a, r⟩ := e
      rcases h with hN | ⟨n, hS, hE⟩
      · simp only at hN
        simp [huntE, huntStepE, hN]
      · simp only at hS
        have hb : (pyStrip n == "") = true := beq_iff_eq.mpr hE
        simp [huntE, huntStepE, hS, hb]
    rw [show run1 ++ e :: run2 = run1 ++ [e] ++ run2 from by simp,
      huntE_append, huntE_append, hsingle, huntE_append]
    simp
  · intro l1 l2 hN
    unfold buildTargetPetsE
    rw [List.foldl_append, List.foldl_append, List.foldl_cons]
    have hstep : targetPetsStep (l1.foldl targetPetsStep (some [])) e.1
        = l1.foldl targetPetsStep (some []) := by
      cases hs : l1.foldl targetPetsStep (some []) <;> simp [targetPetsStep, hN]
    rw [hstep]
  · intro tp p hp
    have hq := ((filtered_results_inv tp items).2.1 p hp).2.2.1
    obtain ⟨t, v, hm, hts, hd, hle⟩ := qualifies_destruct hq
    exact ⟨t, hm, hts⟩
  · intro a n cards hn
    by_cases hs : (pyStrip n == "") = true <;> simp [huntE, huntStepE, hn, hs]
  · intro l1 l2 a n hn hp
    unfold buildTargetPetsE
    rw [List.foldl_append, List.foldl_cons]
    have hstep : targetPetsStep (l1.foldl targetPetsStep (some [])) a = none := by
      cases hs : l1.foldl targetPetsStep (some []) <;> simp [targetPetsStep, hn, hp]
    rw [hstep]
    exact foldl_targetPetsStep_none l2

/-- Witness for C9 (amended) at a concrete run: an entry with no
`pet_name` key contributes nothing, and the remaining target's listing
is unchanged. -/
theorem skip_entries_amended_witness :
    huntE "t" ((⟨none, some 5⟩, some ["x"])
        :: [(⟨some "Dragon", some 10⟩, some ["Dragon\n3 €"])])
      = huntE "t" [(⟨some "Dragon", some 10⟩, some ["Dragon\n3 €"])]
    ∧ huntE "t" [(⟨some "Dragon", some 10⟩, some ["Dragon\n3 €"])]
      = [⟨"t", "Dragon", 3⟩] := by
  refine ⟨?_, by decide⟩
  exact (skip_entries_amended "t" []
    [(⟨some "Dragon", some 10⟩, some ["Dragon\n3 €"])]
    (⟨none, some 5⟩, some ["x"]) [] (Or.inl rfl)).1

/-- Counterexample to C9 as stated, in both of its failing cases.
First, the entry `{" ": 100}` (name empty after trimming) is not inert
for the other entries: its empty dict key captures the substring
fallback for `"Golden Dragon"` and, being falsy, suppresses the Alert
that the target `"Dragon"` produces once the empty entry is removed.
Second, the malformed entry `{pet_name: "Dragon"}` with no
`target_price` is not skipped: the hunt loop still searches it (here
producing a Listing), and the matcher's dict comprehension raises
KeyError on it (the `none` result) instead of skipping it silently. -/
theorem malformed_and_empty_entry_cex :
    (filtered_results (buildTargetPets [⟨some " ", 100⟩, ⟨some "Dragon", 10⟩])
        [⟨"t", "Golden Dragon", 3⟩] = []
      ∧ filtered_results (buildTargetPets [⟨some "Dragon", 10⟩])
          [⟨"t", "Golden Dragon", 3⟩]
        = [("Golden Dragon", ⟨"t", "Golden Dragon", 3⟩)])
    ∧ buildTargetPetsE [⟨some "Dragon", none⟩] = none
    ∧ huntE "t" [(⟨some "Dragon", none⟩, some ["Dragon\n3 €"])]
      = [⟨"t", "Dragon", 3⟩] :=
  ⟨⟨by decide, by decide⟩, by decide, by decide⟩

lemma append_to_csv_cons (items : List Item) (r : Row) (rs : List Row) :
    append_to_csv items (some (r :: rs)) = some ((r :: rs) ++ items.map Row.entry) := by
  unfold append_to_csv
  by_cases hi : items.isEmpty = true
  · rw [if_pos hi, isEmpty_eq_nil hi]
    simp
  · rw [if_neg hi]
    rfl

lemma runs_from_store (runs : List (List Item)) :
    ∀ (r : Row) (rs : List Row),
      runs.foldl (fun s items => append_to_csv items s) (some (r :: rs))
        = some ((r :: rs) ++ (runs.flatten).map Row.entry) := by
  induction runs with
  | nil =>
    intro r rs
    simp
  | cons run rest ih =>
    intro r rs
    rw [List.foldl_cons, append_to_csv_cons]
    have e : (r :: rs) ++ run.map Row.entry = r :: (rs ++ run.map Row.entry) := by simp
    rw [e, ih r (rs ++ run.map Row.entry)]
    simp [List.map_append, List.append_assoc]

/-- C6 (amended): appending a run to an existing nonempty store appends
exactly one row per Listing, in order, after all prior rows and with no
new header (and a run with no Listings changes nothing); starting from no
store, after a sequence of runs the store either does not exist (when
every run produced zero Listings — no header is ever written in that
case) or consists of exactly one header followed by one row per Listing
of every run, in run order. -/
theorem history_append_amended :
    (∀ (items : List Item) (r : Row) (rs : List Row),
        append_to_csv items (some (r :: rs)) = some ((r :: rs) ++ items.map Row.entry))
    ∧ (∀ runs : List (List Item),
        runsFold runs = if runs.all List.isEmpty then none
          else some (Row.header :: (runs.flatten).map Row.entry)) := by
  refine ⟨append_to_csv_cons, ?_⟩
  intro runs
  induction runs with
  | nil => simp [runsFold]
  | cons run rest ih =>
    by_cases hr : run.isEmpty = true
    · have hrun : run = [] := isEmpty_eq_nil hr
      subst hrun
      have e0 : runsFold ([] :: rest) = runsFold rest := by
        unfold runsFold
        rw [List.foldl_cons]
        rfl
      rw [e0, ih]
      simp
    · have hrf : run.isEmpty = false := bfalse hr
      have hne : ¬ ((run :: rest).all List.isEmpty = true) := by
        simp [List.all_cons, hrf]
      rw [if_neg hne]
      have e1 : append_to_csv run none = some (Row.header :: run.map Row.entry) := by
        unfold append_to_csv
        rw [if_neg (by rw [hrf]; exact Bool.noConfusion)]
      unfold runsFold
      rw [List.foldl_cons]
      have e2 : append_to_csv run none = some (Row.header :: run.map Row.entry) := e1
      rw [e2, runs_from_store rest Row.header (run.map Row.entry)]
      simp [List.map_append, List.append_assoc]

/-- Witness for C6 (amended) at a concrete store: appending one item to a
store holding a header and one row appends exactly that row, and two runs
of one item each produce a header plus both rows in run order. -/
theorem history_append_amended_witness :
    append_to_csv [⟨"t", "B", 2⟩] (some [Row.header, Row.entry ⟨"t", "A", 1⟩])
      = some [Row.header, Row.entry ⟨"t", "A", 1⟩, Row.entry ⟨"t", "B", 2⟩]
    ∧ runsFold [[⟨"t", "A", 1⟩], [⟨"t", "B", 2⟩]]
      = some [Row.header, Row.entry ⟨"t", "A", 1⟩, Row.entry ⟨"t", "B", 2⟩] := by
  constructor
  · have h := history_append_amended.1 [⟨"t", "B", 2⟩] Row.header
      [Row.entry ⟨"t", "A", 1⟩]
    rw [h]
    rfl
  · have h := history_append_amended.2 [[⟨"t", "A", 1⟩], [⟨"t", "B", 2⟩]]
    rw [h]
    rfl

/-- Counterexample to C6 as stated: after k = 1 run producing n₁ = 0
Listings, the store was never created — it contains no header at all,
while the claim promises Σnᵢ = 0 rows plus one header. -/
theorem history_empty_runs_cex :
    runsFold [[]] = none ∧ runsFold [[]] ≠ some [Row.header] :=
  ⟨rfl, by decide⟩

lemma foldl_append_map {α : Type} (f : α → String) (l : List α) :
    ∀ acc : List String, l.foldl (fun msgs pr => msgs ++ [f pr]) acc = acc ++ l.map f := by
  induction l with
  | nil =>
    intro acc
    simp
  | cons p t ih =>
    intro acc
    rw [List.foldl_cons, ih (acc ++ [f p])]
    simp

/-- C8 (amended): one message is dispatched per Alert (in
`filtered_results` order), and the dispatched text is exactly
`"🎯 FOUND: <observed_name> for <price:2 decimals>€! (Target <= <p>€)"`,
where `<p>` is the configured max price of the observed name itself when
that name is a configured target key; otherwise it is the max price of
the target matched for the LAST Listing examined by the filter loop (the
leftover loop variable), or `'N/A'` when that lookup also fails — NOT, in
general, the max price of the Target matched for the Alert's winning
Listing. -/
theorem alert_message_amended (tp : List (String × ℚ)) (items : List Item) :
    alert_messages tp items
      = (filtered_results tp items).map (amended_message tp (lastMatch tp items))
    ∧ (alert_messages tp items).length = (filtered_results tp items).length := by
  have h : alert_messages tp items
      = (filtered_results tp items).map (amended_message tp (lastMatch tp items)) := by
    show (filtered_results tp items).foldl
        (fun msgs pr => msgs ++ [amended_message tp (lastMatch tp items) pr]) []
      = (filtered_results tp items).map (amended_message tp (lastMatch tp items))
    rw [foldl_append_map (amended_message tp (lastMatch tp items))
      (filtered_results tp items) []]
    simp
  exact ⟨h, by rw [h, List.length_map]⟩

/-- Counterexample to C8 as stated: with targets Dragon (max 10) and Cat
(max 8) and listings "Golden Dragon" (3, matched to Dragon by fallback)
then "Cat" (5), the message dispatched for the "Golden Dragon" Alert is
"🎯 FOUND: Golden Dragon for 3.00€! (Target <= 8€)": it carries the
"🎯 FOUND: " prefix and shows 8 — the max price of the target matched
for the LAST processed listing ("Cat") — instead of the matched target
Dragon's max price 10 that the claim requires. -/
theorem alert_message_cex :
    alert_messages (buildTargetPets [⟨some "Dragon", 10⟩, ⟨some "Cat", 8⟩])
        [⟨"t", "Golden Dragon", 3⟩, ⟨"t", "Cat", 5⟩]
      = ["🎯 FOUND: Golden Dragon for 3.00€! (Target <= 8€)",
         "🎯 FOUND: Cat for 5.00€! (Target <= 8€)"]
    ∧ ("🎯 FOUND: Golden Dragon for 3.00€! (Target <= 8€)" : String)
        ≠ "Golden Dragon for 3.00€! (Target <= 10€)" :=
  ⟨by decide, by decide⟩
